import Mathlib

/-!
Verification development for the wavelet/DCT image-codec core
(`prezentare_wavelet/src`): shallow embeddings of the quantization-table
construction, DCT block codec, wavelet decomposition wrappers,
threshold-based denoising and the quality metrics, together with proofs
of the behavioural properties stated about them.

Floating-point numbers in the Python source are embedded as exact
rationals (for the computable, arithmetic parts) or as real numbers
(for the transcendental parts such as cosines, square roots and
logarithms).  Python exceptions are embedded as `Except` values.
-/

/-- Error taxonomy of the specification: invalid parameters, unregistered
wavelet names, shape mismatches, insufficient data. -/
inductive Err where
  | invalidParameter
  | unknownWavelet
  | shapeMismatch
  | insufficientData
deriving Repr, DecidableEq

/-- Boolean success test for embedded fallible computations. -/
def isOkE {α : Type} : Except Err α → Bool
  | Except.ok _ => true
  | Except.error _ => false

/- ## Quantization tables (dct.py, quantize_dct / dequantize_dct) -/

/-- Standard JPEG base luminance quantization table `Q50`, as written in
`quantize_dct` and `dequantize_dct` in `dct.py`. -/
def Q50base : List (List ℤ) :=
  [[16, 11, 10, 16, 24, 40, 51, 61],
   [12, 12, 14, 19, 26, 58, 60, 55],
   [14, 13, 16, 24, 40, 57, 69, 56],
   [14, 17, 22, 29, 51, 87, 80, 62],
   [18, 22, 37, 56, 68, 109, 103, 77],
   [24, 35, 55, 64, 81, 104, 113, 92],
   [49, 64, 78, 87, 103, 121, 120, 101],
   [72, 92, 95, 98, 112, 100, 103, 99]]

/-- Entry of the base luminance table. -/
def qBase (i j : Fin 8) : ℤ := ((Q50base.getD i []).getD j 0)

/-- Quality-to-scale mapping of `quantize_dct`: `5000/quality` below
quality 50, `200 - 2*quality` otherwise (exact rational arithmetic). -/
def scaleFor (quality : ℤ) : ℚ :=
  if quality < 50 then 5000 / (quality : ℚ) else 200 - 2 * (quality : ℚ)

/-- Scaled quantization table used by `quantize_dct` and
`dequantize_dct`: `np.clip(np.floor((Q50 * scale + 50) / 100), 1, 255)`
applied entrywise. -/
def quantTable (quality : ℤ) (i j : Fin 8) : ℤ :=
  min 255 (max 1 ⌊((qBase i j : ℚ) * scaleFor quality + 50) / 100⌋)

/-- Quantization-table construction exactly as the specification words it:
scale factor `5000/quality` if `quality < 50` else `200 - 2*quality`, each
entry `clamp(floor((base*scale+50)/100), 1, 255)`. -/
def quantTableSpec (quality : ℤ) (i j : Fin 8) : ℤ :=
  let scale : ℚ :=
    if quality < 50 then 5000 / (quality : ℚ) else 200 - 2 * (quality : ℚ)
  min 255 (max 1 ⌊((qBase i j : ℚ) * scale + 50) / 100⌋)

/-- The base table has nonnegative entries. -/
lemma qBase_nonneg (i j : Fin 8) : 0 ≤ qBase i j := by
  fin_cases i <;> fin_cases j <;> decide

/-- Evaluation form of the table: the rational floor computation reduces
to integer division, which lets concrete instances be computed. -/
lemma quantTable_eval (q : ℤ) (hq : 1 ≤ q) (i j : Fin 8) :
    quantTable q i j =
      if q < 50 then min 255 (max 1 ((qBase i j * 5000 + 50 * q) / (100 * q)))
      else min 255 (max 1 ((qBase i j * (200 - 2 * q) + 50) / 100)) := by
  have hq0 : (0 : ℚ) < (q : ℚ) := by exact_mod_cast lt_of_lt_of_le one_pos hq
  unfold quantTable scaleFor
  by_cases hc : q < 50
  · simp only [hc, if_true]
    congr 1
    congr 1
    congr 1
    set d : ℕ := (100 * q).toNat with hddef
    have hd : ((d : ℤ)) = 100 * q := Int.toNat_of_nonneg (by linarith)
    have hqne : (q : ℚ) ≠ 0 := ne_of_gt hq0
    have harg : ((qBase i j : ℚ) * (5000 / (q : ℚ)) + 50) / 100 =
        ((qBase i j * 5000 + 50 * q : ℤ) : ℚ) / ((d : ℕ) : ℚ) := by
      have hdq : ((d : ℕ) : ℚ) = 100 * (q : ℚ) := by
        exact_mod_cast congrArg (fun z : ℤ => (z : ℚ)) hd
      have h1 : ((qBase i j * 5000 + 50 * q : ℤ) : ℚ) =
          (qBase i j : ℚ) * 5000 + 50 * (q : ℚ) := by
        push_cast
        ring
      rw [hdq, h1, div_eq_div_iff (by norm_num) (by positivity)]
      field_simp
      ring
    rw [harg, Rat.floor_intCast_div_natCast, hd]
  · simp only [hc, if_false]
    congr 1
    congr 1
    congr 1
    have harg : ((qBase i j : ℚ) * (200 - 2 * (q : ℚ)) + 50) / 100 =
        ((qBase i j * (200 - 2 * q) + 50 : ℤ) : ℚ) / ((100 : ℕ) : ℚ) := by
      push_cast
      ring
    rw [harg, Rat.floor_intCast_div_natCast]
    norm_num

/-- The scale mapping is antitone on qualities `[1, 100]`. -/
lemma scaleFor_antitone {q1 q2 : ℤ} (h1 : 1 ≤ q1) (h12 : q1 ≤ q2)
    (h2 : q2 ≤ 100) : scaleFor q2 ≤ scaleFor q1 := by
  unfold scaleFor
  have hq1 : (0 : ℚ) < (q1 : ℚ) := by exact_mod_cast lt_of_lt_of_le one_pos h1
  by_cases c1 : q1 < 50
  · by_cases c2 : q2 < 50
    · simp only [c1, c2, if_true]
      have hq12 : (q1 : ℚ) ≤ (q2 : ℚ) := by exact_mod_cast h12
      gcongr
    · simp only [c1, if_true, c2, if_false]
      have hb : (q2 : ℚ) ≥ 50 := by
        push_neg at c2; exact_mod_cast c2
      have ha : 200 - 2 * (q2 : ℚ) ≤ 100 := by linarith
      have hc : (100 : ℚ) ≤ 5000 / (q1 : ℚ) := by
        rw [le_div_iff₀ hq1]
        have : (q1 : ℚ) ≤ 49 := by
          have : q1 ≤ 49 := by omega
          exact_mod_cast this
        linarith
      linarith
  · have c2 : ¬ q2 < 50 := by omega
    simp only [c1, c2, if_false]
    have : (q1 : ℚ) ≤ (q2 : ℚ) := by exact_mod_cast h12
    linarith

/-- Scaled-table monotonicity at a fixed entry: a lower quality never
produces a smaller divisor. -/
lemma quantTable_mono {q1 q2 : ℤ} (h1 : 1 ≤ q1) (h12 : q1 ≤ q2)
    (h2 : q2 ≤ 100) (i j : Fin 8) :
    quantTable q2 i j ≤ quantTable q1 i j := by
  unfold quantTable
  have hscale := scaleFor_antitone h1 h12 h2
  have hbase : (0 : ℚ) ≤ (qBase i j : ℚ) := by exact_mod_cast qBase_nonneg i j
  have hmul : (qBase i j : ℚ) * scaleFor q2 ≤ (qBase i j : ℚ) * scaleFor q1 :=
    mul_le_mul_of_nonneg_left hscale hbase
  have hdiv : ((qBase i j : ℚ) * scaleFor q2 + 50) / 100 ≤
      ((qBase i j : ℚ) * scaleFor q1 + 50) / 100 := by
    gcongr
  exact min_le_min (le_refl 255) (max_le_max (le_refl 1) (Int.floor_le_floor hdiv))

/-- C3.  Quantization-table construction: for every quality in `[1,100]`
the table used by `quantize_dct` equals the specification formula
(scale `5000/quality` below 50, `200 - 2*quality` otherwise, entries
`clamp(floor((base*scale+50)/100), 1, 255)`); at quality 50 it equals
the base luminance table exactly; and entry `(0,0)` at quality 1 is
strictly larger than at quality 100. -/
theorem quantTable_construction :
    (∀ q : ℤ, 1 ≤ q → q ≤ 100 → ∀ i j : Fin 8,
        quantTable q i j = quantTableSpec q i j) ∧
    (∀ i j : Fin 8, quantTable 50 i j = qBase i j) ∧
    quantTable 1 0 0 > quantTable 100 0 0 := by
  refine ⟨fun q _ _ i j => rfl, ?_, ?_⟩
  · intro i j
    rw [quantTable_eval 50 (by norm_num) i j]
    fin_cases i <;> fin_cases j <;> decide
  · rw [quantTable_eval 1 (by norm_num) 0 0, quantTable_eval 100 (by norm_num) 0 0]
    decide

/-- Witness for C3 at concrete inputs: quality 30 satisfies the formula at
entry (0,0), the quality-50 table matches the base at (1,2), and the
quality extremes compare as stated. -/
theorem quantTable_construction_witness :
    quantTable 30 0 0 = quantTableSpec 30 0 0 ∧
    quantTable 50 1 2 = qBase 1 2 ∧
    quantTable 1 0 0 > quantTable 100 0 0 :=
  ⟨quantTable_construction.1 30 (by decide) (by decide) 0 0,
   quantTable_construction.2.1 1 2,
   quantTable_construction.2.2⟩

/-- C4.  Quantization-table monotonicity: for qualities `q1 ≤ q2` in
`[1,100]` and every entry position, the divisor at quality `q1` is at
least the divisor at quality `q2`. -/
theorem quantTable_monotone (q1 q2 : ℤ) (h1 : 1 ≤ q1) (h12 : q1 ≤ q2)
    (h2 : q2 ≤ 100) : ∀ i j : Fin 8, quantTable q2 i j ≤ quantTable q1 i j :=
  fun i j => quantTable_mono h1 h12 h2 i j

/-- Witness for C4 at the concrete pair of qualities 30 and 80, entry
`(0,0)`. -/
theorem quantTable_monotone_witness : quantTable 80 0 0 ≤ quantTable 30 0 0 :=
  quantTable_monotone 30 80 (by decide) (by decide) (by decide) 0 0

/- ## Quantization round trip (dct.py, quantize_dct / dequantize_dct) -/

/-- Round-half-to-even, the rounding rule of `np.round`, on exact
rationals. -/
def roundEven (x : ℚ) : ℤ :=
  if Int.fract x < 1 / 2 then ⌊x⌋
  else if 1 / 2 < Int.fract x then ⌊x⌋ + 1
  else if ⌊x⌋ % 2 = 0 then ⌊x⌋ else ⌊x⌋ + 1

/-- Wrap-around conversion to a 16-bit signed integer, the effect of
`.astype(np.int16)` on an integral value. -/
def toInt16 (v : ℤ) : ℤ := (v + 32768) % 65536 - 32768

/-- Rounding to nearest (any tie rule) moves a value by at most 1/2. -/
lemma roundEven_abs_le (x : ℚ) : |(roundEven x : ℚ) - x| ≤ 1 / 2 := by
  have hfr0 : 0 ≤ Int.fract x := Int.fract_nonneg x
  have hfr1 : Int.fract x < 1 := Int.fract_lt_one x
  have hfx : (⌊x⌋ : ℚ) - x = -Int.fract x := by
    unfold Int.fract
    ring
  unfold roundEven
  by_cases h1 : Int.fract x < 1 / 2
  · simp only [h1, if_true]
    rw [hfx, abs_neg, abs_of_nonneg hfr0]
    linarith
  · by_cases h2 : 1 / 2 < Int.fract x
    · simp only [h1, if_false, h2, if_true]
      have : ((⌊x⌋ + 1 : ℤ) : ℚ) - x = 1 - Int.fract x := by
        push_cast
        unfold Int.fract
        ring
      rw [this, abs_of_nonneg (by linarith)]
      linarith
    · have heq : Int.fract x = 1 / 2 := le_antisymm (not_lt.mp h2) (not_lt.mp h1)
      simp only [h1, if_false, h2, if_false]
      by_cases h3 : ⌊x⌋ % 2 = 0
      · simp only [h3, if_true]
        rw [hfx, abs_neg, abs_of_nonneg hfr0, heq]
      · simp only [h3, if_false]
        have : ((⌊x⌋ + 1 : ℤ) : ℚ) - x = 1 - Int.fract x := by
          push_cast
          unfold Int.fract
          ring
        rw [this, abs_of_nonneg (by linarith), heq]
        norm_num

/-- Values already in the signed 16-bit range are fixed by the wrap. -/
lemma toInt16_eq_self {v : ℤ} (h1 : -32768 ≤ v) (h2 : v ≤ 32767) :
    toInt16 v = v := by
  unfold toInt16
  rw [Int.emod_eq_of_lt (by linarith) (by linarith)]
  ring

/-- Reduction of a grid index to a block-local index, the `i % 8`
pattern of the block loops in `dct.py`. -/
def finMod8 (i : ℕ) : Fin 8 := ⟨i % 8, Nat.mod_lt i (by norm_num)⟩

/-- Quantization of DCT coefficients (`quantize_dct`): entrywise
divide by the scaled table, `np.round`, and cast to `np.int16`.  The
zero padding in the source touches only rows and columns at or beyond
the grid shape, so on the cropped output region the operation is exactly
this entrywise formula. -/
def quantize_dct (quality : ℤ) (coeffs : ℕ → ℕ → ℚ) : ℕ → ℕ → ℤ :=
  fun i j =>
    toInt16 (roundEven (coeffs i j / (quantTable quality (finMod8 i) (finMod8 j) : ℚ)))

/-- Dequantization (`dequantize_dct`): entrywise multiply by the same
scaled table. -/
def dequantize_dct (quality : ℤ) (z : ℕ → ℕ → ℤ) : ℕ → ℕ → ℚ :=
  fun i j => (z i j : ℚ) * (quantTable quality (finMod8 i) (finMod8 j) : ℚ)

/-- The scaled table entries always lie in `[1, 255]` thanks to the
clip. -/
lemma quantTable_bounds (q : ℤ) (i j : Fin 8) :
    1 ≤ quantTable q i j ∧ quantTable q i j ≤ 255 := by
  unfold quantTable
  constructor
  · exact le_min (by norm_num) (le_max_left 1 _)
  · exact min_le_left 255 _

/-- C10.  Quantization error bound: over grids whose dimensions are
multiples of the block size and whose rounded quotients fit in a signed
16-bit integer, dequantizing the quantized coefficients moves every
entry by at most half the corresponding table divisor, hence by at most
255/2 = 127.5. -/
theorem quantize_dequantize_error_bound (q : ℤ) (hq1 : 1 ≤ q) (hq2 : q ≤ 100)
    (h w : ℕ) (hh : 8 ∣ h) (hw : 8 ∣ w) (coeffs : ℕ → ℕ → ℚ)
    (hsmall : ∀ i j, i < h → j < w →
      |roundEven (coeffs i j / (quantTable q (finMod8 i) (finMod8 j) : ℚ))| ≤ 32767) :
    ∀ i j, i < h → j < w →
      |dequantize_dct q (quantize_dct q coeffs) i j - coeffs i j| ≤
          (quantTable q (finMod8 i) (finMod8 j) : ℚ) / 2 ∧
        (quantTable q (finMod8 i) (finMod8 j) : ℚ) / 2 ≤ 255 / 2 := by
  intro i j hi hj
  have hQ1 : 1 ≤ quantTable q (finMod8 i) (finMod8 j) := (quantTable_bounds q _ _).1
  have hQ255 : quantTable q (finMod8 i) (finMod8 j) ≤ 255 := (quantTable_bounds q _ _).2
  set Q : ℚ := (quantTable q (finMod8 i) (finMod8 j) : ℚ) with hQdef
  have hQpos : 0 < Q := by
    rw [hQdef]
    exact_mod_cast lt_of_lt_of_le one_pos hQ1
  have hQne : Q ≠ 0 := ne_of_gt hQpos
  set r : ℤ := roundEven (coeffs i j / Q) with hrdef
  have hwrap : toInt16 r = r := by
    have := hsmall i j hi hj
    rw [← hQdef, ← hrdef] at this
    rcases abs_le.mp this with ⟨hl, hr⟩
    exact toInt16_eq_self (by linarith) hr
  constructor
  · have hval : dequantize_dct q (quantize_dct q coeffs) i j - coeffs i j =
        Q * ((r : ℚ) - coeffs i j / Q) := by
      unfold dequantize_dct quantize_dct
      rw [← hQdef, ← hrdef, hwrap]
      rw [mul_sub, mul_div_cancel₀ _ hQne, mul_comm Q ((r : ℚ))]
    rw [hval, abs_mul, abs_of_pos hQpos]
    have hround : |(r : ℚ) - coeffs i j / Q| ≤ 1 / 2 := roundEven_abs_le _
    calc Q * |(r : ℚ) - coeffs i j / Q| ≤ Q * (1 / 2) :=
          mul_le_mul_of_nonneg_left hround (le_of_lt hQpos)
      _ = Q / 2 := by ring
  · have : Q ≤ 255 := by
      rw [hQdef]
      exact_mod_cast hQ255
    linarith

/-- Witness for C10: the zero 8-by-8 coefficient grid at quality 50
satisfies the smallness hypothesis, and the bound holds at entry
`(0,0)`. -/
theorem quantize_dequantize_error_bound_witness :
    |dequantize_dct 50 (quantize_dct 50 (fun _ _ => 0)) 0 0 -
        (fun (_ _ : ℕ) => (0 : ℚ)) 0 0| ≤
        (quantTable 50 (finMod8 0) (finMod8 0) : ℚ) / 2 ∧
      (quantTable 50 (finMod8 0) (finMod8 0) : ℚ) / 2 ≤ 255 / 2 :=
  quantize_dequantize_error_bound 50 (by norm_num) (by norm_num) 8 8
    ⟨1, rfl⟩ ⟨1, rfl⟩ (fun _ _ => 0)
    (fun i j _ _ => by
      simp only [zero_div]
      have : roundEven 0 = 0 := by
        unfold roundEven
        norm_num
      rw [this]
      norm_num)
    0 0 (by norm_num) (by norm_num)

/- ## Thresholding of wavelet coefficients (denoising.py, threshold_coeffs) -/

/-- Two-dimensional grid of exact rational samples or coefficients. -/
abbrev Grid := List (List ℚ)

/-- PyWavelets-style coefficient structure `[LL, (LH,HL,HH), ...]`: the
coarsest approximation grid followed by per-level detail triples,
ordered coarsest first as `pywt.wavedec2` returns them. -/
structure PywtCoeffs where
  ll : Grid
  details : List (Grid × Grid × Grid)
deriving Repr, DecidableEq

/-- Modelled from the spec: `pywt.threshold(c, t, mode="soft")` is an
external PyWavelets call; the library computes soft shrinkage as
`c * max(1 - t/|c|, 0)` (at `c = 0` the guarded division yields 0
either way). -/
def pywtSoft (t c : ℚ) : ℚ := c * max (1 - t / |c|) 0

/-- Modelled from the spec: `pywt.threshold(c, t, mode="hard")` is an
external PyWavelets call; the library zeroes values whose magnitude is
below the threshold and keeps the rest. -/
def pywtHard (t c : ℚ) : ℚ := if |c| < t then 0 else c

/-- Elementwise map over a grid. -/
def gridMap (f : ℚ → ℚ) (g : Grid) : Grid := g.map (fun row => row.map f)

/-- Mode dispatch of `threshold_coeffs`: the source tests
`mode == "soft"` and falls to the hard rule otherwise. -/
def pywtThreshold (t : ℚ) (mode : String) (c : ℚ) : ℚ :=
  if mode = "soft" then pywtSoft t c else pywtHard t c

/-- Thresholding pass of `denoising.py`: keep the approximation grid
`coeffs[0]` unchanged and threshold every grid of every detail triple,
building a new structure. -/
def threshold_coeffs (coeffs : PywtCoeffs) (threshold : ℚ) (mode : String) :
    PywtCoeffs :=
  { ll := coeffs.ll
    details := coeffs.details.map (fun d =>
      (gridMap (pywtThreshold threshold mode) d.1,
       gridMap (pywtThreshold threshold mode) d.2.1,
       gridMap (pywtThreshold threshold mode) d.2.2)) }

/-- Sign function as `np.sign` computes it. -/
def sgnQ (c : ℚ) : ℚ := if c < 0 then -1 else if c = 0 then 0 else 1

/-- The library soft rule coincides with the specification formula
`sign(c) * max(|c| - t, 0)`. -/
lemma pywtSoft_eq_spec (t c : ℚ) : pywtSoft t c = sgnQ c * max (|c| - t) 0 := by
  unfold pywtSoft sgnQ
  rcases lt_trichotomy c 0 with hc | hc | hc
  · have hu : 0 < -c := neg_pos.mpr hc
    have hune : -c ≠ 0 := ne_of_gt hu
    rw [abs_of_neg hc, if_pos hc]
    have h1 : c * max (1 - t / -c) 0 = -(-c * max (1 - t / -c) 0) := by ring
    rw [h1, mul_max_of_nonneg _ _ (le_of_lt hu), mul_zero, mul_sub, mul_one,
        mul_div_cancel₀ _ hune]
    ring
  · rw [hc]
    simp
  · have hune : c ≠ 0 := ne_of_gt hc
    rw [abs_of_pos hc, if_neg (not_lt.mpr (le_of_lt hc)), if_neg hune,
        mul_max_of_nonneg _ _ (le_of_lt hc), mul_zero, mul_sub, mul_one,
        mul_div_cancel₀ _ hune, one_mul]

/-- The library hard rule coincides with the specification formula
`c if |c| ≥ t else 0`. -/
lemma pywtHard_eq_spec (t c : ℚ) :
    pywtHard t c = (if t ≤ |c| then c else 0) := by
  unfold pywtHard
  by_cases h : |c| < t
  · rw [if_pos h, if_neg (not_le.mpr h)]
  · rw [if_neg h, if_pos (not_lt.mp h)]

/-- C5.  Thresholding semantics: for any pyramid and threshold `t ≥ 0`,
the returned structure keeps the coarsest approximation grid unchanged,
replaces every detail coefficient `c` by `sign(c)*max(|c|-t,0)` in soft
mode and by `c if |c| ≥ t else 0` in hard mode; being a pure function of
its input, it leaves the input structure untouched. -/
theorem threshold_coeffs_spec (coeffs : PywtCoeffs) (t : ℚ) (ht : 0 ≤ t) :
    (threshold_coeffs coeffs t "soft").ll = coeffs.ll ∧
    (threshold_coeffs coeffs t "hard").ll = coeffs.ll ∧
    (threshold_coeffs coeffs t "soft").details =
      coeffs.details.map (fun d =>
        (gridMap (fun c => sgnQ c * max (|c| - t) 0) d.1,
         gridMap (fun c => sgnQ c * max (|c| - t) 0) d.2.1,
         gridMap (fun c => sgnQ c * max (|c| - t) 0) d.2.2)) ∧
    (threshold_coeffs coeffs t "hard").details =
      coeffs.details.map (fun d =>
        (gridMap (fun c => if t ≤ |c| then c else 0) d.1,
         gridMap (fun c => if t ≤ |c| then c else 0) d.2.1,
         gridMap (fun c => if t ≤ |c| then c else 0) d.2.2)) := by
  have hsoft : pywtThreshold t "soft" = fun c => sgnQ c * max (|c| - t) 0 :=
    funext fun c => by
      unfold pywtThreshold
      rw [if_pos rfl]
      exact pywtSoft_eq_spec t c
  have hhard : pywtThreshold t "hard" = fun c => if t ≤ |c| then c else 0 :=
    funext fun c => by
      unfold pywtThreshold
      rw [if_neg (by decide)]
      exact pywtHard_eq_spec t c
  refine ⟨rfl, rfl, ?_, ?_⟩
  · simp only [threshold_coeffs, hsoft]
  · simp only [threshold_coeffs, hhard]

/-- Witness for C5 on a concrete one-level pyramid with threshold 1. -/
theorem threshold_coeffs_spec_witness :
    (threshold_coeffs ⟨[[1]], [([[2]], [[3]], [[4]])]⟩ 1 "soft").ll = [[1]] ∧
    (threshold_coeffs ⟨[[1]], [([[2]], [[3]], [[4]])]⟩ 1 "hard").ll = [[1]] :=
  ⟨(threshold_coeffs_spec ⟨[[1]], [([[2]], [[3]], [[4]])]⟩ 1 (by norm_num)).1,
   (threshold_coeffs_spec ⟨[[1]], [([[2]], [[3]], [[4]])]⟩ 1 (by norm_num)).2.1⟩

/- ## Denoising threshold selection (denoising.py, compute_threshold) -/

/-- Threshold selection of `denoising.py`: the universal (VisuShrink)
threshold `sigma*sqrt(2*ln(n))`, scaled by 0.8 for "sure" and 0.6 for
"bayes"; any other method name falls through to the final `else`
branch, which returns the universal threshold.  The Python function
raises no exception, so every branch is `Except.ok`. -/
noncomputable def compute_threshold (sigma : ℝ) (n_samples : ℕ)
    (method : String) : Except Err ℝ :=
  if method = "universal" then
    Except.ok (sigma * Real.sqrt (2 * Real.log n_samples))
  else if method = "sure" then
    Except.ok (sigma * Real.sqrt (2 * Real.log n_samples) * 0.8)
  else if method = "bayes" then
    Except.ok (sigma * Real.sqrt (2 * Real.log n_samples) * 0.6)
  else
    Except.ok (sigma * Real.sqrt (2 * Real.log n_samples))

/-- C7 counterexample: the unrecognized method name "frobnicate" does
not produce an error; the call succeeds and returns the same value as
the universal method, contradicting the claimed `InvalidParameter`
failure. -/
theorem compute_threshold_unknown_counterexample :
    ("frobnicate" ≠ "universal" ∧ "frobnicate" ≠ "sure" ∧
        "frobnicate" ≠ "bayes") ∧
    isOkE (compute_threshold 2 100 "frobnicate") = true ∧
    compute_threshold 2 100 "frobnicate" = compute_threshold 2 100 "universal" :=
  ⟨⟨by decide, by decide, by decide⟩, rfl, rfl⟩

/-- C7 amended.  Unknown threshold method names do not fail: for every
sigma and sample count, a method name other than "universal", "sure"
and "bayes" makes `compute_threshold` return the universal
(VisuShrink) threshold `sigma*sqrt(2*ln(n))` as a success value. -/
theorem compute_threshold_unknown_fallback (sigma : ℝ) (n : ℕ)
    (method : String) (h1 : method ≠ "universal") (h2 : method ≠ "sure")
    (h3 : method ≠ "bayes") :
    compute_threshold sigma n method =
      Except.ok (sigma * Real.sqrt (2 * Real.log n)) := by
  unfold compute_threshold
  rw [if_neg h1, if_neg h2, if_neg h3]

/-- Witness for the amended C7 at the concrete method name
"frobnicate". -/
theorem compute_threshold_unknown_fallback_witness :
    compute_threshold 2 100 "frobnicate" =
      Except.ok (2 * Real.sqrt (2 * Real.log 100)) := by
  have h := compute_threshold_unknown_fallback 2 100 "frobnicate"
    (by decide) (by decide) (by decide)
  rw [h]
  norm_num

/- ## Quality metrics (metrics.py, psnr / snr) -/

/-- Result of a metric that can be the IEEE positive infinity returned
by `float("inf")` or a finite real. -/
inductive MetricValue where
  | posInf
  | val (x : ℝ)

/-- Mean squared error of two equal-shaped grids, as `psnr` computes it
inline: the mean of squared differences. -/
noncomputable def mseR (h w : ℕ) (a b : Fin h → Fin w → ℝ) : ℝ :=
  (∑ i, ∑ j, (a i j - b i j) ^ 2) / (h * w)

/-- Peak signal-to-noise ratio (`metrics.py`): `+inf` on exact match,
otherwise `10*log10(max_val^2/mse)`. -/
noncomputable def psnr (h w : ℕ) (a b : Fin h → Fin w → ℝ)
    (max_val : ℝ) : MetricValue :=
  if mseR h w a b = 0 then MetricValue.posInf
  else MetricValue.val (10 * Real.logb 10 (max_val ^ 2 / mseR h w a b))

/-- Signal-to-noise ratio (`metrics.py`): mean signal power over mean
power of `noisy - signal`, `+inf` when the noise power is zero. -/
noncomputable def snr (h w : ℕ) (signal noisy : Fin h → Fin w → ℝ) :
    MetricValue :=
  if (∑ i, ∑ j, (noisy i j - signal i j) ^ 2) / (h * w) = 0 then
    MetricValue.posInf
  else
    MetricValue.val (10 * Real.logb 10
      (((∑ i, ∑ j, signal i j ^ 2) / (h * w)) /
        ((∑ i, ∑ j, (noisy i j - signal i j) ^ 2) / (h * w))))

/-- A mean of squares over a nonempty grid vanishes exactly when every
entry vanishes. -/
lemma meanSq_eq_zero_iff (h w : ℕ) (hh : 0 < h) (hw : 0 < w)
    (f : Fin h → Fin w → ℝ) :
    (∑ i, ∑ j, f i j ^ 2) / (h * w) = 0 ↔ ∀ i j, f i j = 0 := by
  have hne : ((h : ℝ) * w) ≠ 0 :=
    mul_ne_zero (Nat.cast_ne_zero.mpr hh.ne') (Nat.cast_ne_zero.mpr hw.ne')
  constructor
  · intro h0 i j
    rcases div_eq_zero_iff.mp h0 with hs | hd
    · have h1 := (Finset.sum_eq_zero_iff_of_nonneg
        (fun i _ => Finset.sum_nonneg fun j _ => sq_nonneg (f i j))).mp hs
        i (Finset.mem_univ i)
      have h2 := (Finset.sum_eq_zero_iff_of_nonneg
        (fun j _ => sq_nonneg (f i j))).mp h1 j (Finset.mem_univ j)
      exact (pow_eq_zero_iff two_ne_zero).mp h2
    · exact absurd hd hne
  · intro hz
    have hzero : (∑ i, ∑ j, f i j ^ 2) = 0 :=
      Finset.sum_eq_zero fun i _ => Finset.sum_eq_zero fun j _ => by
        rw [hz i j]
        ring
    rw [hzero, zero_div]

/-- C9.  Infinity edge cases of the metrics: on nonempty equal-shaped
grids, `psnr` returns positive infinity exactly when the mean squared
difference is zero and otherwise `10*log10(max_val^2/mse)`; `snr`
returns positive infinity exactly when `noisy - signal` is the zero
grid and otherwise `10*log10(signal power / noise power)`.  Neither
function has an error path. -/
theorem psnr_snr_infinity (h w : ℕ) (hh : 0 < h) (hw : 0 < w)
    (a b s n : Fin h → Fin w → ℝ) (max_val : ℝ) :
    (psnr h w a b max_val = MetricValue.posInf ↔ mseR h w a b = 0) ∧
    (mseR h w a b ≠ 0 →
      psnr h w a b max_val =
        MetricValue.val (10 * Real.logb 10 (max_val ^ 2 / mseR h w a b))) ∧
    (snr h w s n = MetricValue.posInf ↔ ∀ i j, n i j = s i j) ∧
    ((∑ i, ∑ j, (n i j - s i j) ^ 2) / (h * w) ≠ 0 →
      snr h w s n = MetricValue.val (10 * Real.logb 10
        (((∑ i, ∑ j, s i j ^ 2) / (h * w)) /
          ((∑ i, ∑ j, (n i j - s i j) ^ 2) / (h * w))))) := by
  have hiff : (∑ i, ∑ j, (n i j - s i j) ^ 2) / (h * w) = 0 ↔
      ∀ i j, n i j = s i j := by
    rw [meanSq_eq_zero_iff h w hh hw]
    constructor
    · intro hz i j
      have := hz i j
      linarith [this]
    · intro hz i j
      rw [hz i j]
      ring
  refine ⟨?_, ?_, ?_, ?_⟩
  · unfold psnr
    split_ifs with hm
    · simp [hm]
    · simp [hm]
  · intro hm
    unfold psnr
    rw [if_neg hm]
  · unfold snr
    split_ifs with hm
    · simp [hiff.mp hm]
    · constructor
      · intro hcontra
        exact absurd hcontra (by simp)
      · intro hz
        exact absurd (hiff.mpr hz) hm
  · intro hm
    unfold snr
    rw [if_neg hm]

/-- Witness for C9 on concrete 1-by-1 grids: identical grids give
infinite PSNR, and an identical signal/noisy pair gives infinite
SNR. -/
theorem psnr_snr_infinity_witness :
    (psnr 1 1 (fun _ _ => 3) (fun _ _ => 3) 255 = MetricValue.posInf ↔
      mseR 1 1 (fun _ _ => 3) (fun _ _ => 3) = 0) ∧
    (snr 1 1 (fun _ _ => 1) (fun _ _ => 1) = MetricValue.posInf ↔
      ∀ i j : Fin 1, (1 : ℝ) = 1) :=
  ⟨(psnr_snr_infinity 1 1 one_pos one_pos (fun _ _ => 3) (fun _ _ => 3)
      (fun _ _ => 1) (fun _ _ => 1) 255).1,
   (psnr_snr_infinity 1 1 one_pos one_pos (fun _ _ => 3) (fun _ _ => 3)
      (fun _ _ => 1) (fun _ _ => 1) 255).2.2.1⟩

/- ## Wavelet decomposition (wavelets.py DWT2D, denoising.py estimate_noise_sigma) -/

/-- Modelled from the spec: the boundary policy of `pywt.wavedec2`
(an external PyWavelets call) is the symmetric half-point extension
chosen by section 4.1; an arbitrary integer index is reflected into the
signal with period twice its length. -/
def extGet (x : List ℚ) (i : ℤ) : ℚ :=
  let n := x.length
  if n = 0 then 0
  else
    let m := (i % (2 * (n : ℤ))).toNat
    if m < n then x.getD m 0 else x.getD (2 * n - 1 - m) 0

/-- Modelled from the spec: single-level 1D analysis filtering of
`pywt.dwt` — convolution against the symmetric extension followed by
downsampling by two, output length `floor((n + L - 1)/2)` for filter
length `L`. -/
def dwt1 (f : List ℚ) (x : List ℚ) : List ℚ :=
  (List.range ((x.length + f.length - 1) / 2)).map (fun k =>
    ((List.range f.length).map (fun j =>
      f.getD j 0 * extGet x (2 * (k : ℤ) + (j : ℤ) - ((f.length : ℤ) - 1)))).sum)

/-- Filter every row of a grid. -/
def filtRows (f : List ℚ) (g : Grid) : Grid := g.map (dwt1 f)

/-- Filter every column of a grid. -/
def filtCols (f : List ℚ) (g : Grid) : Grid :=
  (filtRows f g.transpose).transpose

/-- Modelled from the spec: single-level 2D decomposition of
`pywt.dwt2` — separable row-then-column filtering producing the
approximation and the three detail subbands; the diagonal subband is
high-pass in both directions. -/
def dwt2 (lo hi : List ℚ) (g : Grid) : Grid × Grid × Grid × Grid :=
  let rL := filtRows lo g
  let rH := filtRows hi g
  (filtCols lo rL, filtCols hi rL, filtCols lo rH, filtCols hi rH)

/-- Modelled from the spec: multi-level `pywt.wavedec2` — recurse on
the approximation subband, returning the final approximation and the
detail triples ordered coarsest first. -/
def wavedec2 (lo hi : List ℚ) (g : Grid) : ℕ → Grid × List (Grid × Grid × Grid)
  | 0 => (g, [])
  | n + 1 =>
    let d := dwt2 lo hi g
    let r := wavedec2 lo hi d.1 n
    (r.1, r.2 ++ [(d.2.1, d.2.2.1, d.2.2.2)])

/-- Daubechies-4 decomposition low-pass filter, the static kernel table
PyWavelets ships for the registered family "db4". -/
def db4_dec_lo : List ℚ :=
  [-0.010597401784997278, 0.032883011666982945, 0.030841381835986965,
   -0.18703481171888114, -0.027983769416983849, 0.63088076792959036,
   0.71484657055254153, 0.23037781330885523]

/-- Daubechies-4 decomposition high-pass filter (quadrature mirror of
the low-pass kernel). -/
def db4_dec_hi : List ℚ :=
  [-0.23037781330885523, 0.71484657055254153, -0.63088076792959036,
   -0.027983769416983849, 0.18703481171888114, 0.030841381835986965,
   -0.032883011666982945, -0.010597401784997278]

/-- Haar decomposition low-pass filter of the registered family
"haar". -/
def haar_dec_lo : List ℚ := [0.7071067811865476, 0.7071067811865476]

/-- Haar decomposition high-pass filter. -/
def haar_dec_hi : List ℚ := [-0.7071067811865476, 0.7071067811865476]

/-- Insertion into a sorted list, for the sorting step of the median. -/
def insertS (x : ℚ) : List ℚ → List ℚ
  | [] => [x]
  | y :: ys => if x ≤ y then x :: y :: ys else y :: insertS x ys

/-- Insertion sort of a list of rationals. -/
def sortQ : List ℚ → List ℚ
  | [] => []
  | x :: xs => insertS x (sortQ xs)

/-- Modelled from the spec: `np.median` (an external NumPy call) —
middle element of the sorted data for odd length, mean of the two
middle elements for even length. -/
def medianQ (xs : List ℚ) : ℚ :=
  let s := sortQ xs
  if s.length % 2 = 1 then s.getD (s.length / 2) 0
  else if s.length = 0 then 0
  else (s.getD (s.length / 2 - 1) 0 + s.getD (s.length / 2) 0) / 2

/-- Finest-level diagonal (high-high) subband of the single-level db4
decomposition, `coeffs[1][2]` in the source. -/
def hhSubband (img : Grid) : Grid :=
  ((wavedec2 db4_dec_lo db4_dec_hi img 1).2.headD ([], [], [])).2.2

/-- Noise estimator of `denoising.py`: `np.median(np.abs(HH)) / 0.6745`
over the flattened finest diagonal subband. -/
def estimate_noise_sigma (img : Grid) : ℚ :=
  medianQ ((hhSubband img).flatten.map (fun c => |c|)) / (6745 / 10000)

/-- Median absolute deviation about zero, the MAD-to-sigma estimator
convention of the specification (detail coefficients are taken as
zero-median under the Gaussian noise model). -/
def medianAbsDevZero (xs : List ℚ) : ℚ := medianQ (xs.map (fun c => |c - 0|))

/-- C6.  Noise sigma estimation: for every image, the estimator equals
the median absolute deviation (about zero) of the flattened finest
diagonal subband of a single-level db4 decomposition, scaled by
`1/0.6745`. -/
theorem estimate_noise_sigma_spec (img : Grid) :
    estimate_noise_sigma img =
      medianAbsDevZero ((hhSubband img).flatten) * (1 / (6745 / 10000)) := by
  unfold estimate_noise_sigma medianAbsDevZero
  simp only [sub_zero]
  rw [div_eq_mul_inv, one_div]

/- ## Decomposition level handling (wavelets.py, DWT2D) -/

/-- Per-level coefficient container of `wavelets.py`: the approximation
grid is present only in the first element of the returned list. -/
structure WaveletCoeffsE where
  LL : Option Grid
  LH : Grid
  HL : Grid
  HH : Grid
deriving Repr, DecidableEq

/-- The `DWT2D` wrapper of `wavelets.py`: run the multi-level
decomposition and restructure the result into per-level containers,
storing the final approximation in the first container.  The source
performs no validation of `level` and raises nothing, so every branch
succeeds. -/
def DWT2D (img : Grid) (lo hi : List ℚ) (level : ℕ) :
    Except Err (List WaveletCoeffsE) :=
  match wavedec2 lo hi img level with
  | (_, []) => Except.ok []
  | (fll, d :: rest) =>
    Except.ok
      ({ LL := some fll, LH := d.1, HL := d.2.1, HH := d.2.2 } ::
        rest.map (fun e => { LL := none, LH := e.1, HL := e.2.1, HH := e.2.2 }))

/-- Floor of the base-2 logarithm, by structural recursion on a fuel
argument so that concrete instances reduce. -/
def log2floorAux : ℕ → ℕ → ℕ
  | 0, _ => 0
  | fuel + 1, n => if n ≤ 1 then 0 else log2floorAux fuel (n / 2) + 1

/-- Floor of the base-2 logarithm (0 at 0). -/
def log2floor (n : ℕ) : ℕ := log2floorAux n n

/-- Maximum decomposition depth claimed by the specification:
`floor(log2(min(height, width))) - 1`. -/
def dwt_max_level (h w : ℕ) : ℕ := log2floor (min h w) - 1

/-- Concrete 4-by-4 grid used to exercise the level limit. -/
def gridC8 : Grid :=
  [[1, 2, 3, 4], [5, 6, 7, 8], [9, 10, 11, 12], [13, 14, 15, 16]]

/-- C8 counterexample: on a 4-by-4 grid, requesting 4 levels exceeds
`floor(log2(min(h,w))) - 1 = 1`, yet `DWT2D` succeeds and returns a
pyramid instead of failing with `InvalidParameter`. -/
theorem DWT2D_excess_levels_counterexample :
    4 > dwt_max_level gridC8.length ((gridC8.headD []).length) ∧
    isOkE (DWT2D gridC8 haar_dec_lo haar_dec_hi 4) = true := by
  constructor
  · decide
  · decide

/-- C8 amended.  The decomposition performs no level validation: for
every grid and every requested level count, including counts exceeding
`floor(log2(min(height, width))) - 1`, `DWT2D` returns a pyramid (the
underlying library only emits a boundary-effects warning). -/
theorem DWT2D_no_level_validation (img : Grid) (lo hi : List ℚ) (level : ℕ)
    (hexcess : level > dwt_max_level img.length ((img.headD []).length)) :
    isOkE (DWT2D img lo hi level) = true := by
  unfold DWT2D
  split <;> rfl

/-- Witness for the amended C8 at the concrete 4-by-4 grid with the
haar filters and 4 levels. -/
theorem DWT2D_no_level_validation_witness :
    isOkE (DWT2D gridC8 haar_dec_lo haar_dec_hi 4) = true :=
  DWT2D_no_level_validation gridC8 haar_dec_lo haar_dec_hi 4 (by decide)

/- ## Block DCT codec (dct.py, DCT2D / IDCT2D / block_dct / block_idct) -/

/-- Product-to-sum identity for cosines. -/
lemma cos_mul_cos (x y : ℝ) :
    Real.cos x * Real.cos y = (Real.cos (x - y) + Real.cos (x + y)) / 2 := by
  rw [Real.cos_sub, Real.cos_add]
  ring

/-- Telescoping evaluation of the odd-multiples cosine sum. -/
lemma two_sin_mul_sum_cos (θ : ℝ) (N : ℕ) :
    2 * Real.sin θ * ∑ n in Finset.range N, Real.cos ((2 * (n : ℝ) + 1) * θ) =
      Real.sin (2 * (N : ℝ) * θ) := by
  have key : ∀ n : ℕ, 2 * Real.sin θ * Real.cos ((2 * (n : ℝ) + 1) * θ) =
      Real.sin (2 * ((n : ℝ) + 1) * θ) - Real.sin (2 * (n : ℝ) * θ) := by
    intro n
    have h1 : (2 * ((n : ℝ) + 1) * θ - 2 * (n : ℝ) * θ) / 2 = θ := by ring
    have h2 : (2 * ((n : ℝ) + 1) * θ + 2 * (n : ℝ) * θ) / 2 =
        (2 * (n : ℝ) + 1) * θ := by ring
    rw [Real.sin_sub_sin, h1, h2]
  rw [Finset.mul_sum]
  have hsum : ∀ n ∈ Finset.range N,
      2 * Real.sin θ * Real.cos ((2 * (n : ℝ) + 1) * θ) =
        (fun m : ℕ => Real.sin (2 * (m : ℝ) * θ)) (n + 1) -
          (fun m : ℕ => Real.sin (2 * (m : ℝ) * θ)) n := by
    intro n _
    rw [key n]
    push_cast
    ring_nf
  rw [Finset.sum_congr rfl hsum,
      Finset.sum_range_sub (fun m : ℕ => Real.sin (2 * (m : ℝ) * θ)) N]
  simp

/-- The odd-multiples cosine sum vanishes for every nonzero integer
frequency strictly below twice the length. -/
lemma sum_cos_eq_zero (N : ℕ) (m : ℤ) (hm : m ≠ 0) (hlt : |m| < 2 * N) :
    ∑ n in Finset.range N,
      Real.cos ((2 * (n : ℝ) + 1) * (Real.pi * (m : ℝ) / (2 * (N : ℝ)))) = 0 := by
  have hN : 0 < N := by
    rcases Nat.eq_zero_or_pos N with h0 | h0
    · subst h0
      norm_num at hlt
      exact absurd hlt (not_lt.mpr (abs_nonneg m))
    · exact h0
  have hNR : (0 : ℝ) < (N : ℝ) := Nat.cast_pos.mpr hN
  set θ : ℝ := Real.pi * (m : ℝ) / (2 * (N : ℝ)) with hθ
  have h2N : (2 * (N : ℝ)) ≠ 0 := by positivity
  have hsin2N : Real.sin (2 * (N : ℝ) * θ) = 0 := by
    have harg : 2 * (N : ℝ) * θ = (m : ℝ) * Real.pi := by
      rw [hθ]
      field_simp
      ring
    rw [harg]
    exact Real.sin_int_mul_pi m
  have hθne : Real.sin θ ≠ 0 := by
    rw [Ne, Real.sin_eq_zero_iff]
    rintro ⟨k, hk⟩
    have hπ : Real.pi ≠ 0 := Real.pi_ne_zero
    have h3 : (k : ℝ) * Real.pi * (2 * (N : ℝ)) = Real.pi * (m : ℝ) := by
      rw [hk, hθ, div_mul_cancel₀ _ h2N]
    have h4 : Real.pi * ((k : ℝ) * (2 * (N : ℝ))) = Real.pi * (m : ℝ) := by
      rw [← h3]
      ring
    have hkm : (k : ℝ) * (2 * (N : ℝ)) = (m : ℝ) := mul_left_cancel₀ hπ h4
    have hkmZ : k * (2 * (N : ℤ)) = m := by exact_mod_cast hkm
    rcases eq_or_ne k 0 with hk0 | hk0
    · rw [hk0, zero_mul] at hkmZ
      exact hm hkmZ.symm
    · have h1k : (1 : ℤ) ≤ |k| := Int.one_le_abs hk0
      have habs : |m| = |k| * (2 * (N : ℤ)) := by
        rw [← hkmZ, abs_mul, abs_of_nonneg (by positivity : (0:ℤ) ≤ 2 * (N : ℤ))]
      have : (2 * (N : ℤ)) ≤ |m| := by
        rw [habs]
        nlinarith [Int.natCast_nonneg N]
      have hlt2 : |m| < 2 * (N : ℤ) := hlt
      linarith
  have hmain := two_sin_mul_sum_cos θ N
  rw [hsin2N] at hmain
  rcases mul_eq_zero.mp hmain with h | h
  · exact absurd h (mul_ne_zero two_ne_zero hθne)
  · exact h

/-- Normalization factors of the orthonormal type-II DCT, as
`scipy.fftpack.dct(..., norm="ortho")` applies them. -/
noncomputable def dctScale (N k : ℕ) : ℝ :=
  if k = 0 then Real.sqrt (1 / (N : ℝ)) else Real.sqrt (2 / (N : ℝ))

/-- Entry `(k, n)` of the orthonormal type-II DCT matrix of size `N`:
`scale(k) * cos(pi*(2n+1)*k/(2N))`. -/
noncomputable def dctEntry (N k n : ℕ) : ℝ :=
  dctScale N k * Real.cos ((2 * (n : ℝ) + 1) * (Real.pi * (k : ℝ) / (2 * (N : ℝ))))

/-- Rows of the DCT matrix are orthonormal. -/
lemma dct_row_orthogonal (N : ℕ) (hN : 0 < N) (j k : ℕ) (hj : j < N) (hk : k < N) :
    ∑ n in Finset.range N, dctEntry N j n * dctEntry N k n =
      if j = k then 1 else 0 := by
  have hNR : (0 : ℝ) < (N : ℝ) := Nat.cast_pos.mpr hN
  have hNne : (N : ℝ) ≠ 0 := ne_of_gt hNR
  have hterm : ∀ n : ℕ,
      dctEntry N j n * dctEntry N k n =
        dctScale N j * dctScale N k / 2 *
          Real.cos ((2 * (n : ℝ) + 1) *
            (Real.pi * (((j : ℤ) - k : ℤ) : ℝ) / (2 * (N : ℝ)))) +
        dctScale N j * dctScale N k / 2 *
          Real.cos ((2 * (n : ℝ) + 1) *
            (Real.pi * (((j : ℤ) + k : ℤ) : ℝ) / (2 * (N : ℝ)))) := by
    intro n
    unfold dctEntry
    have hstep : dctScale N j *
          Real.cos ((2 * (n : ℝ) + 1) * (Real.pi * (j : ℝ) / (2 * (N : ℝ)))) *
        (dctScale N k *
          Real.cos ((2 * (n : ℝ) + 1) * (Real.pi * (k : ℝ) / (2 * (N : ℝ))))) =
        dctScale N j * dctScale N k *
          (Real.cos ((2 * (n : ℝ) + 1) * (Real.pi * (j : ℝ) / (2 * (N : ℝ)))) *
            Real.cos ((2 * (n : ℝ) + 1) * (Real.pi * (k : ℝ) / (2 * (N : ℝ))))) := by
      ring
    rw [hstep, cos_mul_cos]
    have hd : (2 * (n : ℝ) + 1) * (Real.pi * (j : ℝ) / (2 * (N : ℝ))) -
        (2 * (n : ℝ) + 1) * (Real.pi * (k : ℝ) / (2 * (N : ℝ))) =
        (2 * (n : ℝ) + 1) *
          (Real.pi * (((j : ℤ) - k : ℤ) : ℝ) / (2 * (N : ℝ))) := by
      push_cast
      ring
    have hs : (2 * (n : ℝ) + 1) * (Real.pi * (j : ℝ) / (2 * (N : ℝ))) +
        (2 * (n : ℝ) + 1) * (Real.pi * (k : ℝ) / (2 * (N : ℝ))) =
        (2 * (n : ℝ) + 1) *
          (Real.pi * (((j : ℤ) + k : ℤ) : ℝ) / (2 * (N : ℝ))) := by
      push_cast
      ring
    rw [hd, hs]
    ring
  rw [Finset.sum_congr rfl (fun n _ => hterm n), Finset.sum_add_distrib,
      ← Finset.mul_sum, ← Finset.mul_sum]
  by_cases hjk : j = k
  · subst hjk
    have hd0 : ∑ n in Finset.range N,
        Real.cos ((2 * (n : ℝ) + 1) *
          (Real.pi * (((j : ℤ) - j : ℤ) : ℝ) / (2 * (N : ℝ)))) = (N : ℝ) := by
      simp
    by_cases hj0 : j = 0
    · subst hj0
      have hs0 : ∑ n in Finset.range N,
          Real.cos ((2 * (n : ℝ) + 1) *
            (Real.pi * ((((0 : ℕ) : ℤ) + (0 : ℕ) : ℤ) : ℝ) / (2 * (N : ℝ)))) =
          (N : ℝ) := by
        simp
      rw [hd0, hs0, if_pos rfl]
      unfold dctScale
      rw [if_pos rfl, Real.mul_self_sqrt (by positivity)]
      field_simp
      ring
    · have hjpos : 0 < j := Nat.pos_of_ne_zero hj0
      have hm0 : ((j : ℤ) + j) ≠ 0 := by positivity
      have hmlt : |(j : ℤ) + j| < 2 * (N : ℤ) := by
        rw [abs_of_pos (by positivity)]
        omega
      have hs0 := sum_cos_eq_zero N ((j : ℤ) + j) hm0 (by exact_mod_cast hmlt)
      rw [hd0]
      rw [show (((j : ℤ) + j : ℤ) : ℝ) = ((2 * (N : ℤ) * 0 + ((j : ℤ) + j) : ℤ) : ℝ)
        from by push_cast; ring] at hs0
      rw [show (((j : ℤ) + j : ℤ) : ℝ) = ((2 * (N : ℤ) * 0 + ((j : ℤ) + j) : ℤ) : ℝ)
        from by push_cast; ring]
      rw [hs0, mul_zero, add_zero, if_pos rfl]
      unfold dctScale
      rw [if_neg hj0, Real.mul_self_sqrt (by positivity)]
      field_simp
      ring
  · have hmd : ((j : ℤ) - k) ≠ 0 := sub_ne_zero.mpr (by exact_mod_cast hjk)
    have hmdlt : |(j : ℤ) - k| < 2 * (N : ℤ) := by
      rw [abs_lt]
      omega
    have hms : ((j : ℤ) + k) ≠ 0 := by omega
    have hmslt : |(j : ℤ) + k| < 2 * (N : ℤ) := by
      rw [abs_of_nonneg (by positivity)]
      omega
    rw [sum_cos_eq_zero N _ hmd (by exact_mod_cast hmdlt),
        sum_cos_eq_zero N _ hms (by exact_mod_cast hmslt),
        mul_zero, add_zero, if_neg hjk]

/-- Orthonormal type-II DCT matrix of size `N`. -/
noncomputable def dctC (N : ℕ) : Matrix (Fin N) (Fin N) ℝ :=
  Matrix.of fun k n => dctEntry N (k : ℕ) (n : ℕ)

/-- The DCT matrix times its transpose is the identity. -/
lemma dctC_mul_transpose (N : ℕ) (hN : 0 < N) :
    dctC N * (dctC N).transpose = 1 := by
  ext j k
  rw [Matrix.mul_apply]
  simp only [Matrix.transpose_apply, dctC, Matrix.of_apply]
  rw [Fin.sum_univ_eq_sum_range
    (fun n => dctEntry N (j : ℕ) n * dctEntry N (k : ℕ) n) N]
  rw [dct_row_orthogonal N hN (j : ℕ) (k : ℕ) j.isLt k.isLt]
  rw [Matrix.one_apply]
  by_cases h : j = k
  · rw [if_pos h, if_pos (by exact_mod_cast congrArg Fin.val h)]
  · rw [if_neg h, if_neg (fun hc => h (Fin.val_injective hc))]

/-- The transpose of the DCT matrix times the matrix is the identity. -/
lemma dctC_transpose_mul (N : ℕ) (hN : 0 < N) :
    (dctC N).transpose * dctC N = 1 :=
  Matrix.mul_eq_one_comm.mp (dctC_mul_transpose N hN)

/-- Forward 2D DCT on one block (`DCT2D` in `dct.py`): the separable
row and column transforms amount to `C * B * Cᵀ`. -/
noncomputable def DCT2D (N : ℕ) (B : Matrix (Fin N) (Fin N) ℝ) :
    Matrix (Fin N) (Fin N) ℝ :=
  dctC N * B * (dctC N).transpose

/-- Inverse 2D DCT on one block (`IDCT2D` in `dct.py`): `Cᵀ * Y * C`. -/
noncomputable def IDCT2D (N : ℕ) (Y : Matrix (Fin N) (Fin N) ℝ) :
    Matrix (Fin N) (Fin N) ℝ :=
  (dctC N).transpose * Y * dctC N

/-- Per-block perfect inversion of the orthonormal DCT pair. -/
lemma IDCT2D_DCT2D (N : ℕ) (hN : 0 < N) (B : Matrix (Fin N) (Fin N) ℝ) :
    IDCT2D N (DCT2D N B) = B := by
  unfold IDCT2D DCT2D
  have h1 : (dctC N).transpose * (dctC N * B * (dctC N).transpose) * dctC N =
      ((dctC N).transpose * dctC N) * B * ((dctC N).transpose * dctC N) := by
    simp only [Matrix.mul_assoc]
  rw [h1, dctC_transpose_mul N hN, Matrix.one_mul, Matrix.mul_one]

/-- Edge-replicating padding (`np.pad(..., mode="edge")`), written as an
index clamp: entries beyond the last row or column replicate it. -/
def padEdge (h w : ℕ) (x : ℕ → ℕ → ℝ) : ℕ → ℕ → ℝ :=
  fun i j => x (min i (h - 1)) (min j (w - 1))

/-- Zero padding (`np.pad(..., mode="constant")`): entries beyond the
stored shape read as zero. -/
def padZero (h w : ℕ) (y : ℕ → ℕ → ℝ) : ℕ → ℕ → ℝ :=
  fun i j => if i < h ∧ j < w then y i j else 0

/-- Clamp into a closed interval, as `np.clip` computes it. -/
noncomputable def clip (lo hi v : ℝ) : ℝ := min hi (max lo v)

/-- Blockwise forward DCT over an `h`-by-`w` image (`block_dct`): pad
to a multiple of the block size with edge replication, shift each block
by `-128`, transform it, and crop back; entry `(i, j)` of the result is
entry `(i mod N, j mod N)` of the transform of the block containing
`(i, j)`. -/
noncomputable def block_dct (N h w : ℕ) (image : ℕ → ℕ → ℝ) : ℕ → ℕ → ℝ :=
  fun i j =>
    ∑ u : Fin N, ∑ v : Fin N,
      dctEntry N (i % N) (u : ℕ) * dctEntry N (j % N) (v : ℕ) *
        (padEdge h w image (N * (i / N) + (u : ℕ)) (N * (j / N) + (v : ℕ)) - 128)

/-- Blockwise inverse DCT (`block_idct`): pad the coefficients with
zeros to a multiple of the block size, invert each block, add back 128,
crop, and clip into `[0, 255]`. -/
noncomputable def block_idct (N h w : ℕ) (coeffs : ℕ → ℕ → ℝ) : ℕ → ℕ → ℝ :=
  fun i j =>
    clip 0 255
      ((∑ u : Fin N, ∑ v : Fin N,
        dctEntry N (u : ℕ) (i % N) * dctEntry N (v : ℕ) (j % N) *
          padZero h w coeffs (N * (i / N) + (u : ℕ)) (N * (j / N) + (v : ℕ))) + 128)

/-- The shifted block of the padded image that `block_dct` transforms. -/
noncomputable def blockOf (N h w : ℕ) (x : ℕ → ℕ → ℝ) (b bq : ℕ) :
    Matrix (Fin N) (Fin N) ℝ :=
  Matrix.of fun p q =>
    padEdge h w x (N * b + (p : ℕ)) (N * bq + (q : ℕ)) - 128

/-- The zero-padded coefficient block that `block_idct` inverts. -/
noncomputable def blockOfZ (N h w : ℕ) (y : ℕ → ℕ → ℝ) (b bq : ℕ) :
    Matrix (Fin N) (Fin N) ℝ :=
  Matrix.of fun p q =>
    padZero h w y (N * b + (p : ℕ)) (N * bq + (q : ℕ))

/-- On block-aligned indices, `block_dct` computes the per-block
forward transform of the shifted padded block. -/
lemma block_dct_apply (N h w : ℕ) (hN : 0 < N) (x : ℕ → ℕ → ℝ)
    (b bq a c : ℕ) (ha : a < N) (hc : c < N) :
    block_dct N h w x (N * b + a) (N * bq + c) =
      DCT2D N (blockOf N h w x b bq) ⟨a, ha⟩ ⟨c, hc⟩ := by
  unfold block_dct DCT2D
  have h1 : (N * b + a) % N = a := by
    rw [Nat.mul_add_mod]
    exact Nat.mod_eq_of_lt ha
  have h2 : (N * b + a) / N = b := by
    rw [Nat.mul_add_div hN, Nat.div_eq_of_lt ha, add_zero]
  have h3 : (N * bq + c) % N = c := by
    rw [Nat.mul_add_mod]
    exact Nat.mod_eq_of_lt hc
  have h4 : (N * bq + c) / N = bq := by
    rw [Nat.mul_add_div hN, Nat.div_eq_of_lt hc, add_zero]
  rw [h1, h2, h3, h4]
  simp only [Matrix.mul_apply, Matrix.transpose_apply, dctC, blockOf,
    Matrix.of_apply]
  rw [Finset.sum_comm]
  refine Finset.sum_congr rfl fun q _ => ?_
  rw [Finset.sum_mul]
  refine Finset.sum_congr rfl fun p _ => ?_
  ring

/-- On block-aligned indices, `block_idct` computes the clipped shifted
per-block inverse transform of the zero-padded coefficient block. -/
lemma block_idct_apply (N h w : ℕ) (hN : 0 < N) (y : ℕ → ℕ → ℝ)
    (b bq a c : ℕ) (ha : a < N) (hc : c < N) :
    block_idct N h w y (N * b + a) (N * bq + c) =
      clip 0 255 (IDCT2D N (blockOfZ N h w y b bq) ⟨a, ha⟩ ⟨c, hc⟩ + 128) := by
  unfold block_idct IDCT2D
  have h1 : (N * b + a) % N = a := by
    rw [Nat.mul_add_mod]
    exact Nat.mod_eq_of_lt ha
  have h2 : (N * b + a) / N = b := by
    rw [Nat.mul_add_div hN, Nat.div_eq_of_lt ha, add_zero]
  have h3 : (N * bq + c) % N = c := by
    rw [Nat.mul_add_mod]
    exact Nat.mod_eq_of_lt hc
  have h4 : (N * bq + c) / N = bq := by
    rw [Nat.mul_add_div hN, Nat.div_eq_of_lt hc, add_zero]
  rw [h1, h2, h3, h4]
  congr 2
  simp only [Matrix.mul_apply, Matrix.transpose_apply, dctC, blockOfZ,
    Matrix.of_apply]
  rw [Finset.sum_comm]
  refine Finset.sum_congr rfl fun q _ => ?_
  rw [Finset.sum_mul]
  refine Finset.sum_congr rfl fun p _ => ?_
  ring

/-- C2 amended.  DCT round trip: for a block size dividing both
dimensions and an image whose samples lie in the valid range
`[0, 255]`, the blockwise inverse DCT of the blockwise forward DCT
restores the image exactly (over the reals; no quantization applied). -/
theorem block_dct_roundtrip (N h w : ℕ) (hN : 0 < N) (hh : N ∣ h)
    (hw : N ∣ w) (x : ℕ → ℕ → ℝ)
    (hrange : ∀ i j, i < h → j < w → 0 ≤ x i j ∧ x i j ≤ 255) :
    ∀ i j, i < h → j < w →
      block_idct N h w (block_dct N h w x) i j = x i j := by
  intro i j hi hj
  obtain ⟨H, rfl⟩ := hh
  obtain ⟨W, rfl⟩ := hw
  obtain ⟨a, haN, b, rfl⟩ : ∃ a, a < N ∧ ∃ b, i = N * b + a :=
    ⟨i % N, Nat.mod_lt i hN, i / N, (Nat.div_add_mod i N).symm⟩
  obtain ⟨c, hcN, bq, rfl⟩ : ∃ c, c < N ∧ ∃ bq, j = N * bq + c :=
    ⟨j % N, Nat.mod_lt j hN, j / N, (Nat.div_add_mod j N).symm⟩
  have hbH : b < H := by
    have hlt : N * b < N * H := lt_of_le_of_lt (Nat.le_add_right _ _) hi
    exact Nat.lt_of_mul_lt_mul_left hlt
  have hbW : bq < W := by
    have hlt : N * bq < N * W := lt_of_le_of_lt (Nat.le_add_right _ _) hj
    exact Nat.lt_of_mul_lt_mul_left hlt
  have hboundi : ∀ p : ℕ, p < N → N * b + p < N * H := by
    intro p hp
    have e1 : N * b + N = N * (b + 1) := by ring
    have e2 : N * (b + 1) ≤ N * H := Nat.mul_le_mul_left N hbH
    omega
  have hboundj : ∀ q : ℕ, q < N → N * bq + q < N * W := by
    intro q hq
    have e1 : N * bq + N = N * (bq + 1) := by ring
    have e2 : N * (bq + 1) ≤ N * W := Nat.mul_le_mul_left N hbW
    omega
  rw [block_idct_apply N (N * H) (N * W) hN _ b bq a c haN hcN]
  have hY : blockOfZ N (N * H) (N * W) (block_dct N (N * H) (N * W) x) b bq =
      DCT2D N (blockOf N (N * H) (N * W) x b bq) := by
    ext p q
    simp only [blockOfZ, Matrix.of_apply, padZero]
    rw [if_pos ⟨hboundi (p : ℕ) p.isLt, hboundj (q : ℕ) q.isLt⟩]
    exact block_dct_apply N (N * H) (N * W) hN x b bq (p : ℕ) (q : ℕ)
      p.isLt q.isLt
  rw [hY, IDCT2D_DCT2D N hN]
  have h5 : N * b + a < N * H := hboundi a haN
  have h6 : N * bq + c < N * W := hboundj c hcN
  have hBentry : blockOf N (N * H) (N * W) x b bq ⟨a, haN⟩ ⟨c, hcN⟩ =
      x (N * b + a) (N * bq + c) - 128 := by
    simp only [blockOf, Matrix.of_apply, padEdge]
    rw [min_eq_left (by omega), min_eq_left (by omega)]
  rw [hBentry, sub_add_cancel]
  have hxr := hrange _ _ hi hj
  unfold clip
  rw [max_eq_right hxr.1, min_eq_right hxr.2]

/-- Witness for the amended C2: a constant in-range 1-by-1 image at
block size 1 is restored exactly. -/
theorem block_dct_roundtrip_witness :
    block_idct 1 1 1 (block_dct 1 1 1 (fun _ _ => 100)) 0 0 = 100 :=
  block_dct_roundtrip 1 1 1 one_pos dvd_rfl dvd_rfl (fun _ _ => 100)
    (fun _ _ _ _ => ⟨by norm_num, by norm_num⟩) 0 0 one_pos one_pos

/-- C2 counterexample: the final clip of `block_idct` is not the
identity on out-of-range samples, so the round trip fails on the 1-by-1
grid with constant value 300 at block size 1 (the claim quantifies over
every real-valued grid). -/
theorem block_dct_roundtrip_counterexample :
    block_idct 1 1 1 (block_dct 1 1 1 (fun _ _ => 300)) 0 0 = 255 ∧
    (255 : ℝ) ≠ 300 := by
  constructor
  · simp only [block_idct, block_dct, Fin.sum_univ_one, dctEntry, dctScale,
      padEdge, padZero, clip, Fin.val_zero, Nat.cast_zero, Nat.cast_one]
    norm_num [Real.cos_zero, Real.sqrt_one]
  · norm_num
